import Mathlib

/-!
Verification development for the LSC drift simulation repository.

The repository holds two Python scripts that integrate the longitudinal
evolution of a density-modulated electron beam in a drift section:

* a harmonic-summation variant (Variant H, function collective_ode), which
  derives the per-particle longitudinal field from truncated Fourier
  bunching factors, and
* a grid/FFT variant (Variant G, function collective_ode_fft), which
  histograms the particles onto a uniform grid over one laser period and
  solves for the field in Fourier space.

This file is a shallow embedding of both right-hand sides and of the
diagnostics extraction, over the real numbers (the scripts use double
precision; real arithmetic is the idealised semantics).  Machine floats are
modelled by the reals, numpy nan sentinels by Option.none, and the discrete
Fourier transform of scipy.fft by the standard DFT sum.
-/

namespace LSC

noncomputable section

open scoped Classical

/-! ## Physical constants (scipy.constants values used by the scripts) -/

/-- Elementary charge, the constant e of scipy.constants. -/
def eCharge : ℝ := 1.602176634e-19

/-- Electron mass, the constant m_e of scipy.constants. -/
def mE : ℝ := 9.1093837015e-31

/-- Speed of light, the constant c of scipy.constants. -/
def cLight : ℝ := 299792458

/-- Vacuum permittivity, the constant epsilon_0 of scipy.constants. -/
def eps0 : ℝ := 8.8541878128e-12

/-! ## Shared state layout helpers

Both scripts keep the ensemble in one flat array Y of length 2N with the
energies in the even slots (Y[0::2]) and the phases or positions in the odd
slots (Y[1::2]). -/

/-- Index of the energy slot of particle i in the flat state vector. -/
def evenIdx (N : ℕ) (i : Fin N) : Fin (2 * N) :=
  ⟨2 * i.val, by have h := i.isLt; omega⟩

/-- Index of the phase or position slot of particle i in the flat state vector. -/
def oddIdx (N : ℕ) (i : Fin N) : Fin (2 * N) :=
  ⟨2 * i.val + 1, by have h := i.isLt; omega⟩

/-- Particle index recovered from a flat-state index (integer halving). -/
def halfIdx (N : ℕ) (j : Fin (2 * N)) : Fin N :=
  ⟨j.val / 2, by have h := j.isLt; omega⟩

/-- The slice Y[0::2] of the flat state: per-particle relative energy deviation. -/
def currentEta (N : ℕ) (Y : Fin (2 * N) → ℝ) (i : Fin N) : ℝ := Y (evenIdx N i)

/-- The slice Y[1::2] of the flat state: per-particle phase (Variant H). -/
def currentTheta (N : ℕ) (Y : Fin (2 * N) → ℝ) (i : Fin N) : ℝ := Y (oddIdx N i)

/-- Build a flat state vector from an energy slice and a phase slice, as the
scripts do with Y0[0::2] and Y0[1::2]. -/
def interleave (N : ℕ) (a b : Fin N → ℝ) : Fin (2 * N) → ℝ := fun j =>
  if j.val % 2 = 0 then a (halfIdx N j) else b (halfIdx N j)

/-- Python float modulo with a real divisor, the semantics of np.mod:
x - L * floor (x / L). -/
def pymod (x L : ℝ) : ℝ := x - L * (⌊x / L⌋ : ℤ)

/-! ## Variant H (LSC_drift2.ipynb): configuration and harmonic field solver -/

/-- Module-level configuration of the harmonic-summation script.  The source
assigns these as module globals (N_particles, lambda_laser, gamma_ref,
sigma_eta0_rel, A_mod_over_sigma_eta0, I_peak_avg, beam_radius,
N_harmonics_Ez). -/
structure CfgH where
  Np : ℕ
  lam : ℝ
  gammaRef : ℝ
  sigmaEta0 : ℝ
  AmodRatio : ℝ
  Ipeak : ℝ
  rbeam : ℝ
  Nh : ℕ

/-- k_laser = 2 pi / lambda_laser. -/
def kLaser (cfg : CfgH) : ℝ := 2 * Real.pi / cfg.lam

/-- n0_avg = I_peak_avg / (e * c * pi * beam_radius**2). -/
def n0Avg (cfg : CfgH) : ℝ := cfg.Ipeak / (eCharge * cLight * Real.pi * cfg.rbeam ^ 2)

/-- Ez_const_factor = (2 * e * n0_avg) / (epsilon_0 * k_laser). -/
def EzConstFactor (cfg : CfgH) : ℝ := 2 * eCharge * n0Avg cfg / (eps0 * kLaser cfg)

/-- eta_change_factor = -e / (gamma_ref * m_e * c**2). -/
def etaChangeFactor (cfg : CfgH) : ℝ := -eCharge / (cfg.gammaRef * mE * cLight ^ 2)

/-- theta_change_factor = k_laser / gamma_ref**2. -/
def thetaChangeFactor (cfg : CfgH) : ℝ := kLaser cfg / cfg.gammaRef ^ 2

/-- The entry bn_array[n] filled by the loop
for n_h in range(1, N_harmonics_Ez + 1): bn_array[n_h-1] = mean(cos(n_h * theta)).
The Fin index n stands for the zero-based array slot, harmonic order n+1. -/
def bnArray (N Nh : ℕ) (θ : Fin N → ℝ) (n : Fin Nh) : ℝ :=
  (∑ i : Fin N, Real.cos (((n.val : ℝ) + 1) * θ i)) / N

/-- The bunching factor of harmonic order n+1 as a function of the harmonic
order alone (the body of the loop above does not mention N_harmonics_Ez). -/
def bnAt (N : ℕ) (θ : Fin N → ℝ) (n : ℕ) : ℝ :=
  (∑ i : Fin N, Real.cos (((n : ℝ) + 1) * θ i)) / N

/-- sum_terms_for_Ez of the source: the harmonic sum accumulated by
for n_h in range(1, N_harmonics_Ez + 1):
  if bn_array[n_h-1] != 0 and n_h != 0:
    sum_terms += (bn_array[n_h-1] / n_h) * sin(n_h * theta). -/
def sumTerms (cfg : CfgH) (θ : Fin cfg.Np → ℝ) (i : Fin cfg.Np) : ℝ :=
  ∑ n : Fin cfg.Nh,
    if bnArray cfg.Np cfg.Nh θ n ≠ 0 ∧ n.val + 1 ≠ 0 then
      (bnArray cfg.Np cfg.Nh θ n / ((n.val : ℝ) + 1)) *
        Real.sin (((n.val : ℝ) + 1) * θ i)
    else 0

/-- Ez_particles = - Ez_const_factor * sum_terms_for_Ez. -/
def EzParticles (cfg : CfgH) (θ : Fin cfg.Np → ℝ) (i : Fin cfg.Np) : ℝ :=
  -EzConstFactor cfg * sumTerms cfg θ i

/-- The ODE right-hand side collective_ode of the harmonic script:
dYdz[0::2] = eta_change_factor * Ez_particles,
dYdz[1::2] = theta_change_factor * current_eta. -/
def collective_ode (cfg : CfgH) (z : ℝ) (Y : Fin (2 * cfg.Np) → ℝ) :
    Fin (2 * cfg.Np) → ℝ := fun j =>
  if j.val % 2 = 0 then
    etaChangeFactor cfg * EzParticles cfg (currentTheta cfg.Np Y) (halfIdx cfg.Np j)
  else
    thetaChangeFactor cfg * currentEta cfg.Np Y (halfIdx cfg.Np j)

/-- Modelled from the spec: the external adaptive ODE engine (scipy
solve_ivp, out of the core scope per the spec) applied for a single explicit
integration step of size h from height z0; the minimal conforming scheme is
the explicit Euler update Y + h * f. -/
def eulerStep (M : ℕ) (f : ℝ → (Fin M → ℝ) → (Fin M → ℝ)) (z0 h : ℝ)
    (Y : Fin M → ℝ) : Fin M → ℝ := fun j => Y j + h * f z0 Y j

/-! ## Variant G (src/unnamed/part_000): configuration and grid/FFT solver -/

/-- Module-level configuration of the grid/FFT script (N_particles,
lambda_laser, gamma_ref, I_avg_beam, beam_radius_transverse, N_grid_s).
The simulated period period_length_s equals lambda_laser. -/
structure CfgG where
  Np : ℕ
  lam : ℝ
  gammaRef : ℝ
  Iavg : ℝ
  rbeam : ℝ
  Ng : ℕ

/-- beam_area_transverse = pi * beam_radius_transverse**2. -/
def beamArea (cfg : CfgG) : ℝ := Real.pi * cfg.rbeam ^ 2

/-- T_laser_period = lambda_laser / c. -/
def Tlaser (cfg : CfgG) : ℝ := cfg.lam / cLight

/-- Q_total_in_one_period = I_avg_beam * T_laser_period. -/
def Qtot (cfg : CfgG) : ℝ := cfg.Iavg * Tlaser cfg

/-- Q_macro = Q_total_in_one_period / N_particles (the source name is
Q_macro). -/
def Qmac (cfg : CfgG) : ℝ := Qtot cfg / cfg.Np

/-- ds_grid = period_length_s / N_grid_s. -/
def dsGrid (cfg : CfgG) : ℝ := cfg.lam / cfg.Ng

/-- eta_change_factor_ode = -1.0 / (gamma_ref * m_e * c**2). -/
def etaChangeFactorOde (cfg : CfgG) : ℝ := -1 / (cfg.gammaRef * mE * cLight ^ 2)

/-- s_change_factor_ode = 1.0 / gamma_ref**2. -/
def sChangeFactorOde (cfg : CfgG) : ℝ := 1 / cfg.gammaRef ^ 2

/-- The raw (unwrapped) position slice Y[1::2] of the grid-variant state. -/
def currentSRaw (N : ℕ) (Y : Fin (2 * N) → ℝ) (i : Fin N) : ℝ := Y (oddIdx N i)

/-- current_s_mod = np.mod(current_s_raw, period_length_s). -/
def currentSMod (cfg : CfgG) (Y : Fin (2 * cfg.Np) → ℝ) (i : Fin cfg.Np) : ℝ :=
  pymod (currentSRaw cfg.Np Y i) cfg.lam

/-- The bin assigned by np.histogram with Ng uniform bins on the range
(0, L) to a value s inside the range: floor (s * Ng / L), with the last bin
closed on the right so that s = L falls in bin Ng - 1. -/
def histBin (Ng : ℕ) (L s : ℝ) : ℤ := min ⌊s * Ng / L⌋ ((Ng : ℤ) - 1)

/-- counts of np.histogram(current_s_mod, bins=N_grid_s, range=(0, L)):
the number of particles whose modulo-reduced position lies in the range and
falls in bin j. -/
def countsOf (cfg : CfgG) (smod : Fin cfg.Np → ℝ) (j : Fin cfg.Ng) : ℕ :=
  (Finset.univ.filter fun i : Fin cfg.Np =>
    0 ≤ smod i ∧ smod i ≤ cfg.lam ∧ histBin cfg.Ng cfg.lam (smod i) = (j.val : ℤ)).card

/-- rho_s = (-Q_macro) * counts / (ds_grid * beam_area_transverse). -/
def rhoS (cfg : CfgG) (smod : Fin cfg.Np → ℝ) (j : Fin cfg.Ng) : ℝ :=
  -Qmac cfg * (countsOf cfg smod j : ℝ) / (dsGrid cfg * beamArea cfg)

/-- rho_ac_s = rho_s - np.mean(rho_s). -/
def rhoAc (Ng : ℕ) (rho : Fin Ng → ℝ) (j : Fin Ng) : ℝ :=
  rho j - (∑ k : Fin Ng, rho k) / Ng

/-- The forward discrete Fourier transform of scipy.fft.fft (unnormalised,
negative exponent), the transform engine contract of the spec. -/
def fft (n : ℕ) (x : Fin n → ℂ) (k : Fin n) : ℂ :=
  ∑ j : Fin n,
    x j * Complex.exp (-(2 * (Real.pi : ℂ) * Complex.I * (j.val : ℂ) * (k.val : ℂ) / (n : ℂ)))

/-- The inverse discrete Fourier transform of scipy.fft.ifft (1/n
normalisation, positive exponent). -/
def ifft (n : ℕ) (X : Fin n → ℂ) (j : Fin n) : ℂ :=
  (∑ k : Fin n,
    X k * Complex.exp (2 * (Real.pi : ℂ) * Complex.I * (j.val : ℂ) * (k.val : ℂ) / (n : ℂ))) / (n : ℂ)

/-- The frequency value of scipy.fft.fftfreq(n, d) at slot j:
j/(n d) for the first half of the slots, (j-n)/(n d) for the rest. -/
def fftfreqVal (n : ℕ) (d : ℝ) (j : Fin n) : ℝ :=
  (if 2 * j.val < n then (j.val : ℝ) else (j.val : ℝ) - n) / (n * d)

/-- k_s_grid_fft = fftfreq(N_grid_s, d=ds_grid) * 2 * pi. -/
def kGridVal (n : ℕ) (d : ℝ) (j : Fin n) : ℝ := fftfreqVal n d j * (2 * Real.pi)

/-- Ez_fft: for the slots with a nonzero wavenumber,
Ez_fft[k] = rho_ac_fft[k] / (1j * k_s_grid_fft[k] * epsilon_0); the k = 0
slots are set to 0. -/
def EzFftOf (Ng : ℕ) (d : ℝ) (rho : Fin Ng → ℝ) (k : Fin Ng) : ℂ :=
  if kGridVal Ng d k = 0 then 0
  else fft Ng (fun j => ((rhoAc Ng rho j : ℝ) : ℂ)) k /
    (Complex.I * (kGridVal Ng d k : ℝ) * (eps0 : ℝ))

/-- The statement Ez_s_grid = ifft(Ez_fft).real of the source: the real part
of the inverse transform, kept with no check on the imaginary residual. -/
def realPartGrid (Ng : ℕ) (X : Fin Ng → ℂ) (j : Fin Ng) : ℝ := (ifft Ng X j).re

/-- The grid field computed from a grid charge density: subtract the mean,
transform, divide by (i k epsilon_0) away from k = 0, inverse transform and
keep the real part. -/
def EzGridOf (Ng : ℕ) (d : ℝ) (rho : Fin Ng → ℝ) (j : Fin Ng) : ℝ :=
  realPartGrid Ng (EzFftOf Ng d rho) j

/-- particle_grid_indices = np.clip(np.floor(s / ds_grid), 0, N_g - 1),
in the clip order of numpy: first the lower bound, then the upper. -/
def clipIdx (Ng : ℕ) (d s : ℝ) : ℤ := min (max ⌊s / d⌋ 0) ((Ng : ℤ) - 1)

/-- Array access Ez[t] for an integer index already clipped into range;
out of range (never reached after the clip, see the bounds theorem) reads 0. -/
def gridLookup (Ng : ℕ) (f : Fin Ng → ℝ) (t : ℤ) : ℝ :=
  if h : t.toNat < Ng then f ⟨t.toNat, h⟩ else 0

/-- Ez_particles_interp = -Ez_s_grid[particle_grid_indices]: the step-7
interpolation of the source, a nearest-bin lookup with a sign flip. -/
def EzInterpStep (Ng : ℕ) (d : ℝ) (Ez : Fin Ng → ℝ) (s : ℝ) : ℝ :=
  -gridLookup Ng Ez (clipIdx Ng d s)

/-- The grid field of the current state: Ez_s_grid as a function of Y. -/
def EzSGridY (cfg : CfgG) (Y : Fin (2 * cfg.Np) → ℝ) (j : Fin cfg.Ng) : ℝ :=
  EzGridOf cfg.Ng (dsGrid cfg) (rhoS cfg (currentSMod cfg Y)) j

/-- The clipped grid index of particle i in the current state. -/
def particleGridIdx (cfg : CfgG) (Y : Fin (2 * cfg.Np) → ℝ) (i : Fin cfg.Np) : ℤ :=
  clipIdx cfg.Ng (dsGrid cfg) (currentSMod cfg Y i)

/-- The per-particle field sample Ez_particles_interp of the current state. -/
def EzParticlesInterp (cfg : CfgG) (Y : Fin (2 * cfg.Np) → ℝ) (i : Fin cfg.Np) : ℝ :=
  EzInterpStep cfg.Ng (dsGrid cfg) (EzSGridY cfg Y) (currentSMod cfg Y i)

/-- The clipped grid index of particle i packaged as a Fin index (the clip
keeps it inside the array, see the bounds theorem). -/
def gridIdxFin (cfg : CfgG) (hNg : 0 < cfg.Ng) (Y : Fin (2 * cfg.Np) → ℝ)
    (i : Fin cfg.Np) : Fin cfg.Ng :=
  ⟨(particleGridIdx cfg Y i).toNat, by
    have h0 : (0 : ℤ) ≤ (cfg.Ng : ℤ) - 1 := by omega
    have h1 : (0 : ℤ) ≤ particleGridIdx cfg Y i :=
      le_min (le_max_right _ _) h0
    have h2 : particleGridIdx cfg Y i ≤ (cfg.Ng : ℤ) - 1 := min_le_right _ _
    omega⟩

/-- The ODE right-hand side collective_ode_fft of the grid script:
dYdz[0::2] = (-e) * Ez_particles_interp * eta_change_factor_ode,
dYdz[1::2] = s_change_factor_ode * current_eta. -/
def collective_ode_fft (cfg : CfgG) (z : ℝ) (Y : Fin (2 * cfg.Np) → ℝ) :
    Fin (2 * cfg.Np) → ℝ := fun j =>
  if j.val % 2 = 0 then
    -eCharge * EzParticlesInterp cfg Y (halfIdx cfg.Np j) * etaChangeFactorOde cfg
  else
    sChangeFactorOde cfg * currentEta cfg.Np Y (halfIdx cfg.Np j)

/-! ## Diagnostics extraction (both scripts) -/

/-- np.mean over a snapshot. -/
def npMean (N : ℕ) (x : Fin N → ℝ) : ℝ := (∑ i : Fin N, x i) / N

/-- np.std over a snapshot (population standard deviation, ddof = 0). -/
def npStd (N : ℕ) (x : Fin N → ℝ) : ℝ :=
  Real.sqrt ((∑ i : Fin N, (x i - npMean N x) ^ 2) / N)

/-- history_sigma_eta_ode of the harmonic script: for each stored snapshot,
append std(eta) / sigma_eta0 when N_particles > 10, np.nan otherwise.
np.nan is modelled by Option.none. -/
def historySigmaEtaOde (N : ℕ) (σ0 : ℝ) (snaps : List (Fin N → ℝ)) :
    List (Option ℝ) :=
  snaps.map fun s => if 10 < N then some (npStd N s / σ0) else none

/-- history_sigma_eta_ode_fft of the grid script: the same per-snapshot rule. -/
def historySigmaEtaOdeFft (N : ℕ) (σ0 : ℝ) (snaps : List (Fin N → ℝ)) :
    List (Option ℝ) :=
  snaps.map fun s => if 10 < N then some (npStd N s / σ0) else none

/-! ## Concrete configurations and states used by witnesses and
counterexamples -/

/-- A one-particle, one-bin grid configuration. -/
def cfg5 : CfgG := ⟨1, 1, 1, 1, 1, 1⟩

/-- A one-particle, two-bin grid configuration with period 2, beam radius 1
and average current equal to the numeric value of c (so the macrocharge is
exactly 2). -/
def cfg7 : CfgG := ⟨1, 2, 1, cLight, 1, 2⟩

/-- A one-particle, two-bin grid configuration used for the interpolation
sign witness. -/
def cfgW4 : CfgG := ⟨1, 1, 1, 1, 1, 2⟩

/-- A harmonic configuration with a zero harmonic count. -/
def cfg8c : CfgH := ⟨1, 2, 3, 1, 1, 1, 1, 0⟩

/-- A harmonic configuration with one particle and one harmonic. -/
def cfg1w : CfgH := ⟨1, 1, 1, 1, 1, 1, 1, 1⟩

/-- The all-zero two-slot state for cfg5. -/
def Yz2 : Fin (2 * cfg5.Np) → ℝ := ![0, 0]

/-- The all-zero two-slot state for cfg7: one particle with eta = 0 at s = 0. -/
def Yz7 : Fin (2 * cfg7.Np) → ℝ := ![0, 0]

/-- The all-zero two-slot state for cfgW4. -/
def YzW4 : Fin (2 * cfgW4.Np) → ℝ := ![0, 0]

/-- The four phases 0, pi/2, pi, 3 pi/2 of the concrete scenario. -/
def phases4 : Fin 4 → ℝ := ![0, Real.pi / 2, Real.pi, 3 * Real.pi / 2]

/-- A concrete complex grid vector. -/
def Xc7 : Fin 2 → ℂ := ![1, 0]

/-- A concrete complex grid vector whose inverse transform is purely
imaginary. -/
def Zc7 : Fin 2 → ℂ := ![0, Complex.I]

/-- A constant eleven-particle snapshot. -/
def snap11 : Fin 11 → ℝ := fun _ => 0

/-! ## Helper lemmas on the flat state layout -/

theorem evenIdx_val (N : ℕ) (i : Fin N) : (evenIdx N i).val = 2 * i.val := rfl

theorem oddIdx_val (N : ℕ) (i : Fin N) : (oddIdx N i).val = 2 * i.val + 1 := rfl

theorem halfIdx_evenIdx (N : ℕ) (i : Fin N) : halfIdx N (evenIdx N i) = i := by
  apply Fin.ext
  show 2 * i.val / 2 = i.val
  omega

theorem halfIdx_oddIdx (N : ℕ) (i : Fin N) : halfIdx N (oddIdx N i) = i := by
  apply Fin.ext
  show (2 * i.val + 1) / 2 = i.val
  omega

theorem oddIdx_injective (N : ℕ) {a b : Fin N} (h : oddIdx N a = oddIdx N b) :
    a = b := by
  apply Fin.ext
  have hv := congrArg Fin.val h
  simp only [oddIdx_val] at hv
  omega

theorem currentEta_interleave (N : ℕ) (a b : Fin N → ℝ) :
    currentEta N (interleave N a b) = a := by
  funext i
  show interleave N a b (evenIdx N i) = a i
  unfold interleave
  rw [if_pos (by simp [evenIdx_val, Nat.mul_mod_right]), halfIdx_evenIdx]

theorem currentTheta_interleave (N : ℕ) (a b : Fin N → ℝ) :
    currentTheta N (interleave N a b) = b := by
  funext i
  show interleave N a b (oddIdx N i) = b i
  unfold interleave
  rw [if_neg (by simp [oddIdx_val, Nat.mul_add_mod]), halfIdx_oddIdx]

theorem collective_ode_even (cfg : CfgH) (z : ℝ) (Y : Fin (2 * cfg.Np) → ℝ)
    (i : Fin cfg.Np) :
    collective_ode cfg z Y (evenIdx cfg.Np i) =
      etaChangeFactor cfg * EzParticles cfg (currentTheta cfg.Np Y) i := by
  unfold collective_ode
  rw [if_pos (by simp [evenIdx_val, Nat.mul_mod_right]), halfIdx_evenIdx]

theorem collective_ode_odd (cfg : CfgH) (z : ℝ) (Y : Fin (2 * cfg.Np) → ℝ)
    (i : Fin cfg.Np) :
    collective_ode cfg z Y (oddIdx cfg.Np i) =
      thetaChangeFactor cfg * currentEta cfg.Np Y i := by
  unfold collective_ode
  rw [if_neg (by simp [oddIdx_val, Nat.mul_add_mod]), halfIdx_oddIdx]

theorem collective_ode_fft_even (cfg : CfgG) (z : ℝ) (Y : Fin (2 * cfg.Np) → ℝ)
    (i : Fin cfg.Np) :
    collective_ode_fft cfg z Y (evenIdx cfg.Np i) =
      -eCharge * EzParticlesInterp cfg Y i * etaChangeFactorOde cfg := by
  unfold collective_ode_fft
  rw [if_pos (by simp [evenIdx_val, Nat.mul_mod_right]), halfIdx_evenIdx]

theorem collective_ode_fft_odd (cfg : CfgG) (z : ℝ) (Y : Fin (2 * cfg.Np) → ℝ)
    (i : Fin cfg.Np) :
    collective_ode_fft cfg z Y (oddIdx cfg.Np i) =
      sChangeFactorOde cfg * currentEta cfg.Np Y i := by
  unfold collective_ode_fft
  rw [if_neg (by simp [oddIdx_val, Nat.mul_add_mod]), halfIdx_oddIdx]

theorem bnArray_eq_bnAt (N Nh : ℕ) (θ : Fin N → ℝ) (n : Fin Nh) :
    bnArray N Nh θ n = bnAt N θ n.val := rfl

/-! ## Claim C1 -/

/-- Claim C1: for every ensemble of phases and every harmonic count, the
Variant H solver computes, for each particle i, the field
Ez_i = -C * sum over n = 1..N_h of (b_n / n) * sin(n * theta_i), where b_n
is the mean over all particles of cos(n * theta) (the guard on a vanishing
bunching factor only skips a term that is zero anyway), and the entry
bn_array[n] for a given n is the function bnAt of n alone, independent of
the harmonic count. -/
theorem C1_harmonic_field_formula (cfg : CfgH) (θ : Fin cfg.Np → ℝ)
    (i : Fin cfg.Np) :
    EzParticles cfg θ i =
      -EzConstFactor cfg *
        ∑ n ∈ Finset.range cfg.Nh,
          (bnAt cfg.Np θ n / ((n : ℝ) + 1)) * Real.sin (((n : ℝ) + 1) * θ i) ∧
    ∀ (Nh : ℕ) (m : Fin Nh), bnArray cfg.Np Nh θ m = bnAt cfg.Np θ m.val := by
  constructor
  · unfold EzParticles
    congr 1
    unfold sumTerms
    have hterm : ∀ n : Fin cfg.Nh,
        (if bnArray cfg.Np cfg.Nh θ n ≠ 0 ∧ n.val + 1 ≠ 0 then
          (bnArray cfg.Np cfg.Nh θ n / ((n.val : ℝ) + 1)) *
            Real.sin (((n.val : ℝ) + 1) * θ i)
        else 0) =
          (bnAt cfg.Np θ n.val / ((n.val : ℝ) + 1)) *
            Real.sin (((n.val : ℝ) + 1) * θ i) := by
      intro n
      by_cases hb : bnArray cfg.Np cfg.Nh θ n = 0
      · rw [if_neg (by intro hc; exact hc.1 hb), ← bnArray_eq_bnAt, hb, zero_div,
          zero_mul]
      · rw [if_pos ⟨hb, Nat.succ_ne_zero n.val⟩, bnArray_eq_bnAt]
    rw [Finset.sum_congr rfl fun n _ => hterm n]
    exact Fin.sum_univ_eq_sum_range
      (fun n => (bnAt cfg.Np θ n / ((n : ℝ) + 1)) * Real.sin (((n : ℝ) + 1) * θ i))
      cfg.Nh
  · intro Nh m
    rfl

/-! ## Claim C2 -/

/-- Claim C2: both right-hand sides decompose as the spec states: the energy
slot of particle i is a constant built from the reference energy and the
physical constants times the per-particle field sample from the bound
solver, and the position slot is a constant scaling as the inverse reference
energy squared times eta_i alone (the displayed right side mentions no other
slot of the state). -/
theorem C2_collective_rhs_form (cfgH : CfgH) (cfgG : CfgG) (z w : ℝ)
    (YH : Fin (2 * cfgH.Np) → ℝ) (YG : Fin (2 * cfgG.Np) → ℝ)
    (i : Fin cfgH.Np) (p : Fin cfgG.Np) :
    collective_ode cfgH z YH (evenIdx cfgH.Np i) =
      (-eCharge / (cfgH.gammaRef * mE * cLight ^ 2)) *
        EzParticles cfgH (currentTheta cfgH.Np YH) i ∧
    collective_ode cfgH z YH (oddIdx cfgH.Np i) =
      (kLaser cfgH / cfgH.gammaRef ^ 2) * YH (evenIdx cfgH.Np i) ∧
    collective_ode_fft cfgG w YG (evenIdx cfgG.Np p) =
      (eCharge / (cfgG.gammaRef * mE * cLight ^ 2)) * EzParticlesInterp cfgG YG p ∧
    collective_ode_fft cfgG w YG (oddIdx cfgG.Np p) =
      (1 / cfgG.gammaRef ^ 2) * YG (evenIdx cfgG.Np p) := by
  refine ⟨?_, ?_, ?_, ?_⟩
  · rw [collective_ode_even]
    unfold etaChangeFactor
    ring
  · rw [collective_ode_odd]
    unfold thetaChangeFactor currentEta
    ring
  · rw [collective_ode_fft_even]
    unfold etaChangeFactorOde
    ring
  · rw [collective_ode_fft_odd]
    unfold sChangeFactorOde currentEta
    ring

/-! ## Claim C3 -/

theorem rhoAc_add_const (Ng : ℕ) (hNg : 0 < Ng) (rho : Fin Ng → ℝ) (cst : ℝ) :
    rhoAc Ng (fun i => rho i + cst) = rhoAc Ng rho := by
  funext j
  unfold rhoAc
  rw [Finset.sum_add_distrib, Finset.sum_const, Finset.card_univ, Fintype.card_fin]
  have hN : (Ng : ℝ) ≠ 0 := Nat.cast_ne_zero.mpr (by omega)
  field_simp
  ring

/-- Claim C3: in the Variant G solve, for every input density, the k = 0
Fourier component of the field is exactly zero after the frequency-space
solve, and adding a uniform density offset to the grid charge density does
not change the resulting field on the grid. -/
theorem C3_dc_field_component_zero (Ng : ℕ) (hNg : 0 < Ng) (d : ℝ)
    (rho : Fin Ng → ℝ) (cst : ℝ) :
    EzFftOf Ng d rho ⟨0, hNg⟩ = 0 ∧
    EzGridOf Ng d (fun i => rho i + cst) = EzGridOf Ng d rho := by
  constructor
  · have h0 : ((⟨0, hNg⟩ : Fin Ng) : ℕ) = 0 := rfl
    unfold EzFftOf kGridVal fftfreqVal
    simp only [h0]
    rw [if_pos (show 2 * 0 < Ng by omega)]
    norm_num
  · have hac : rhoAc Ng (fun i => rho i + cst) = rhoAc Ng rho :=
      rhoAc_add_const Ng hNg rho cst
    have hfft : EzFftOf Ng d (fun i => rho i + cst) = EzFftOf Ng d rho := by
      funext k
      unfold EzFftOf
      rw [hac]
    funext j
    unfold EzGridOf
    rw [hfft]

/-- Claim C3 witness: the theorem applied at the one-bin grid with the zero
density, unit spacing and offset 1. -/
theorem C3_dc_field_component_zero_witness :
    EzFftOf 1 1 ![0] ⟨0, Nat.one_pos⟩ = 0 ∧
    EzGridOf 1 1 (fun i => ![0] i + 1) = EzGridOf 1 1 ![0] :=
  C3_dc_field_component_zero 1 Nat.one_pos 1 ![0] 1

/-! ## Claim C4 -/

/-- Claim C4 counterexample: the step-7 interpolation does not read the grid
field as-is.  On a two-bin grid holding the constant field 1, the
per-particle sample at position 0 is -1 while the grid value at the computed
bin index is 1. -/
theorem C4_counterexample_sign :
    EzInterpStep 2 1 ![1, 1] 0 ≠ gridLookup 2 ![1, 1] (clipIdx 2 1 0) := by
  have hclip : clipIdx 2 1 0 = 0 := by
    unfold clipIdx
    norm_num
  have hlook : gridLookup 2 ![1, 1] (0 : ℤ) = 1 := by
    unfold gridLookup
    norm_num
  unfold EzInterpStep
  rw [hclip, hlook]
  norm_num

/-- Claim C4 amended: in Variant G the per-particle field sample equals the
negation of the grid field value at the particle nearest-bin grid index. -/
theorem C4_sample_negates_grid (cfg : CfgG) (hNg : 0 < cfg.Ng)
    (Y : Fin (2 * cfg.Np) → ℝ) (i : Fin cfg.Np) :
    EzParticlesInterp cfg Y i = -EzSGridY cfg Y (gridIdxFin cfg hNg Y i) := by
  unfold EzParticlesInterp EzInterpStep gridLookup
  have hlt : (clipIdx cfg.Ng (dsGrid cfg) (currentSMod cfg Y i)).toNat < cfg.Ng :=
    (gridIdxFin cfg hNg Y i).isLt
  rw [dif_pos hlt]
  rfl

/-- Claim C4 amended witness: the theorem applied at the concrete two-bin
configuration with the one-particle state at the origin. -/
theorem C4_sample_negates_grid_witness :
    EzParticlesInterp cfgW4 YzW4 ⟨0, Nat.one_pos⟩ =
      -EzSGridY cfgW4 YzW4 (gridIdxFin cfgW4 (by decide) YzW4 ⟨0, Nat.one_pos⟩) :=
  C4_sample_negates_grid cfgW4 (by decide) YzW4 ⟨0, Nat.one_pos⟩

/-! ## Claim C5 -/

theorem pymod_add_period (x L : ℝ) (hL : L ≠ 0) : pymod (x + L) L = pymod x L := by
  unfold pymod
  have h : (x + L) / L = x / L + 1 := by field_simp
  rw [h, Int.floor_add_one]
  push_cast
  ring

theorem currentSMod_update (cfg : CfgG) (hL : cfg.lam ≠ 0)
    (Y : Fin (2 * cfg.Np) → ℝ) (i : Fin cfg.Np) :
    currentSMod cfg
        (Function.update Y (oddIdx cfg.Np i) (Y (oddIdx cfg.Np i) + cfg.lam)) =
      currentSMod cfg Y := by
  funext j
  unfold currentSMod currentSRaw
  by_cases h : j = i
  · subst h
    rw [Function.update_same]
    exact pymod_add_period _ _ hL
  · rw [Function.update_noteq (fun he => h (oddIdx_injective cfg.Np he))]

/-- Claim C5: for every Variant G state, replacing the raw position of one
particle by that position plus exactly one period leaves its bin index, its
per-particle field sample and its energy derivative unchanged. -/
theorem C5_period_shift (cfg : CfgG) (hL : cfg.lam ≠ 0) (z : ℝ)
    (Y : Fin (2 * cfg.Np) → ℝ) (i : Fin cfg.Np) :
    particleGridIdx cfg
        (Function.update Y (oddIdx cfg.Np i) (Y (oddIdx cfg.Np i) + cfg.lam)) i =
      particleGridIdx cfg Y i ∧
    EzParticlesInterp cfg
        (Function.update Y (oddIdx cfg.Np i) (Y (oddIdx cfg.Np i) + cfg.lam)) i =
      EzParticlesInterp cfg Y i ∧
    collective_ode_fft cfg z
        (Function.update Y (oddIdx cfg.Np i) (Y (oddIdx cfg.Np i) + cfg.lam))
        (evenIdx cfg.Np i) =
      collective_ode_fft cfg z Y (evenIdx cfg.Np i) := by
  have hs := currentSMod_update cfg hL Y i
  have hinterp : EzParticlesInterp cfg
      (Function.update Y (oddIdx cfg.Np i) (Y (oddIdx cfg.Np i) + cfg.lam)) i =
      EzParticlesInterp cfg Y i := by
    unfold EzParticlesInterp EzSGridY
    rw [hs]
  refine ⟨?_, hinterp, ?_⟩
  · unfold particleGridIdx
    rw [hs]
  · rw [collective_ode_fft_even, collective_ode_fft_even, hinterp]

/-- Claim C5 witness: the theorem applied at the one-bin configuration with
the one-particle state at the origin. -/
theorem C5_period_shift_witness :
    particleGridIdx cfg5
        (Function.update Yz2 (oddIdx cfg5.Np ⟨0, Nat.one_pos⟩)
          (Yz2 (oddIdx cfg5.Np ⟨0, Nat.one_pos⟩) + cfg5.lam)) ⟨0, Nat.one_pos⟩ =
      particleGridIdx cfg5 Yz2 ⟨0, Nat.one_pos⟩ ∧
    EzParticlesInterp cfg5
        (Function.update Yz2 (oddIdx cfg5.Np ⟨0, Nat.one_pos⟩)
          (Yz2 (oddIdx cfg5.Np ⟨0, Nat.one_pos⟩) + cfg5.lam)) ⟨0, Nat.one_pos⟩ =
      EzParticlesInterp cfg5 Yz2 ⟨0, Nat.one_pos⟩ ∧
    collective_ode_fft cfg5 0
        (Function.update Yz2 (oddIdx cfg5.Np ⟨0, Nat.one_pos⟩)
          (Yz2 (oddIdx cfg5.Np ⟨0, Nat.one_pos⟩) + cfg5.lam))
        (evenIdx cfg5.Np ⟨0, Nat.one_pos⟩) =
      collective_ode_fft cfg5 0 Yz2 (evenIdx cfg5.Np ⟨0, Nat.one_pos⟩) :=
  C5_period_shift cfg5 (by norm_num [cfg5]) 0 Yz2 ⟨0, Nat.one_pos⟩

/-! ## Claim C6 -/

/-- Claim C6: in Variant G the clipped grid index of every particle lies in
[0, N_g - 1] (so the array access is in bounds), and a modulo-reduced
position landing exactly on the upper period boundary clips into the last
bin. -/
theorem C6_grid_index_bounds (cfg : CfgG) (hNg : 0 < cfg.Ng)
    (hL : cfg.lam ≠ 0) (Y : Fin (2 * cfg.Np) → ℝ) (i : Fin cfg.Np) :
    (0 ≤ particleGridIdx cfg Y i ∧
      particleGridIdx cfg Y i ≤ (cfg.Ng : ℤ) - 1 ∧
      (particleGridIdx cfg Y i).toNat < cfg.Ng) ∧
    clipIdx cfg.Ng (dsGrid cfg) cfg.lam = (cfg.Ng : ℤ) - 1 := by
  have h0 : (0 : ℤ) ≤ (cfg.Ng : ℤ) - 1 := by omega
  have hlow : 0 ≤ particleGridIdx cfg Y i := le_min (le_max_right _ _) h0
  have hhigh : particleGridIdx cfg Y i ≤ (cfg.Ng : ℤ) - 1 := min_le_right _ _
  refine ⟨⟨hlow, hhigh, by omega⟩, ?_⟩
  have hNgR : (cfg.Ng : ℝ) ≠ 0 := Nat.cast_ne_zero.mpr (by omega)
  have hdiv : cfg.lam / dsGrid cfg = (cfg.Ng : ℝ) := by
    unfold dsGrid
    field_simp
  unfold clipIdx
  rw [hdiv]
  rw [show ((cfg.Ng : ℝ)) = (((cfg.Ng : ℤ) : ℝ)) by push_cast; ring, Int.floor_intCast]
  rw [max_eq_left (by omega), min_eq_right (by omega)]

/-- Claim C6 witness: the theorem applied at the one-bin configuration with
the one-particle state at the origin. -/
theorem C6_grid_index_bounds_witness :
    ((0 ≤ particleGridIdx cfg5 Yz2 ⟨0, Nat.one_pos⟩ ∧
      particleGridIdx cfg5 Yz2 ⟨0, Nat.one_pos⟩ ≤ (cfg5.Ng : ℤ) - 1 ∧
      (particleGridIdx cfg5 Yz2 ⟨0, Nat.one_pos⟩).toNat < cfg5.Ng) ∧
    clipIdx cfg5.Ng (dsGrid cfg5) cfg5.lam = (cfg5.Ng : ℤ) - 1) :=
  C6_grid_index_bounds cfg5 (by decide) (by norm_num [cfg5]) Yz2 ⟨0, Nat.one_pos⟩

/-! ## Two-point transform evaluation lemmas -/

theorem cexp_neg_pi_mul_I : Complex.exp (-((Real.pi : ℂ) * Complex.I)) = -1 := by
  rw [Complex.exp_neg, Complex.exp_pi_mul_I]
  norm_num

theorem fft_two_zero (x : Fin 2 → ℂ) : fft 2 x 0 = x 0 + x 1 := by
  unfold fft
  rw [Fin.sum_univ_two]
  simp [Complex.exp_zero]

theorem fft_two_one (x : Fin 2 → ℂ) : fft 2 x 1 = x 0 - x 1 := by
  unfold fft
  rw [Fin.sum_univ_two]
  simp only [Fin.val_zero, Fin.val_one, Nat.cast_zero, Nat.cast_one, Nat.cast_ofNat,
    mul_zero, zero_mul, mul_one, zero_div, neg_zero, Complex.exp_zero]
  rw [show -(2 * (Real.pi : ℂ) * Complex.I / 2) = -((Real.pi : ℂ) * Complex.I) by ring]
  rw [cexp_neg_pi_mul_I]
  ring

theorem ifft_two_zero (X : Fin 2 → ℂ) : ifft 2 X 0 = (X 0 + X 1) / 2 := by
  unfold ifft
  rw [Fin.sum_univ_two]
  simp [Complex.exp_zero]

theorem ifft_two_one (X : Fin 2 → ℂ) : ifft 2 X 1 = (X 0 - X 1) / 2 := by
  unfold ifft
  rw [Fin.sum_univ_two]
  simp only [Fin.val_zero, Fin.val_one, Nat.cast_zero, Nat.cast_one, Nat.cast_ofNat,
    mul_zero, zero_mul, mul_one, zero_div, neg_zero, Complex.exp_zero]
  rw [show (2 * (Real.pi : ℂ) * Complex.I / 2) = (Real.pi : ℂ) * Complex.I by ring]
  rw [Complex.exp_pi_mul_I]
  ring

/-! ## Claim C7: concrete evaluation of the grid pipeline at cfg7 -/

theorem ofReal_mul_I_re (a : ℝ) : (((a : ℝ) : ℂ) * Complex.I).re = 0 := by
  simp [Complex.mul_re]

theorem ofReal_mul_I_im (a : ℝ) : (((a : ℝ) : ℂ) * Complex.I).im = a := by
  simp [Complex.mul_im]

theorem c7_smod : currentSMod cfg7 Yz7 = fun _ => 0 := by
  funext i
  have hNp : cfg7.Np = 1 := rfl
  have hi : i = ⟨0, Nat.one_pos⟩ :=
    Fin.ext (show i.val = 0 by have := i.isLt; omega)
  subst hi
  show pymod (Yz7 (oddIdx cfg7.Np ⟨0, Nat.one_pos⟩)) cfg7.lam = 0
  have hY : Yz7 (oddIdx cfg7.Np ⟨0, Nat.one_pos⟩) = 0 := rfl
  rw [hY]
  unfold pymod
  norm_num

theorem c7_Qmac : Qmac cfg7 = 2 := by
  unfold Qmac Qtot Tlaser
  norm_num [cfg7, cLight]

theorem c7_ds : dsGrid cfg7 = 1 := by
  unfold dsGrid
  norm_num [cfg7]

theorem c7_area : beamArea cfg7 = Real.pi := by
  unfold beamArea
  norm_num [cfg7]

theorem c7_histBin : histBin cfg7.Ng cfg7.lam 0 = 0 := by
  unfold histBin
  norm_num [cfg7]

theorem c7_counts_zero : countsOf cfg7 (fun _ => 0) (0 : Fin 2) = 1 := by
  unfold countsOf
  rw [Finset.filter_true_of_mem]
  · rw [Finset.card_univ, Fintype.card_fin]
    rfl
  · intro i _
    refine ⟨le_refl 0, by norm_num [cfg7], ?_⟩
    rw [c7_histBin]
    simp

theorem c7_counts_one : countsOf cfg7 (fun _ => 0) (1 : Fin 2) = 0 := by
  unfold countsOf
  rw [Finset.filter_false_of_mem]
  · rw [Finset.card_empty]
  · intro i _
    intro hc
    have h3 := hc.2.2
    rw [c7_histBin] at h3
    simp at h3

theorem c7_rho_zero : rhoS cfg7 (fun _ => 0) (0 : Fin 2) = -2 / Real.pi := by
  unfold rhoS
  rw [c7_counts_zero, c7_Qmac, c7_ds, c7_area]
  norm_num

theorem c7_rho_one : rhoS cfg7 (fun _ => 0) (1 : Fin 2) = 0 := by
  unfold rhoS
  rw [c7_counts_one]
  norm_num

theorem c7_rhoAc_zero : rhoAc 2 (rhoS cfg7 (fun _ => 0)) 0 = -1 / Real.pi := by
  unfold rhoAc
  rw [Fin.sum_univ_two, c7_rho_zero, c7_rho_one]
  have hpi := Real.pi_ne_zero
  field_simp
  ring

theorem c7_rhoAc_one : rhoAc 2 (rhoS cfg7 (fun _ => 0)) 1 = 1 / Real.pi := by
  unfold rhoAc
  rw [Fin.sum_univ_two, c7_rho_zero, c7_rho_one]
  have hpi := Real.pi_ne_zero
  field_simp
  ring

theorem c7_kGrid_zero : kGridVal 2 (dsGrid cfg7) (0 : Fin 2) = 0 := by
  unfold kGridVal fftfreqVal
  simp

theorem c7_kGrid_one : kGridVal 2 (dsGrid cfg7) (1 : Fin 2) = -Real.pi := by
  unfold kGridVal fftfreqVal
  rw [c7_ds]
  norm_num
  ring

theorem c7_EzFft_zero :
    EzFftOf 2 (dsGrid cfg7) (rhoS cfg7 (fun _ => 0)) 0 = 0 := by
  unfold EzFftOf
  rw [if_pos c7_kGrid_zero]

theorem c7_EzFft_one :
    EzFftOf 2 (dsGrid cfg7) (rhoS cfg7 (fun _ => 0)) 1 =
      ((-2 / (Real.pi ^ 2 * eps0) : ℝ) : ℂ) * Complex.I := by
  unfold EzFftOf
  rw [if_neg (by rw [c7_kGrid_one]; exact neg_ne_zero.mpr Real.pi_ne_zero)]
  rw [fft_two_one, c7_rhoAc_zero, c7_rhoAc_one, c7_kGrid_one]
  have hden : Complex.I * ((-Real.pi : ℝ) : ℂ) * ((eps0 : ℝ) : ℂ) ≠ 0 := by
    apply mul_ne_zero (mul_ne_zero Complex.I_ne_zero ?_) ?_
    · exact Complex.ofReal_ne_zero.mpr (neg_ne_zero.mpr Real.pi_ne_zero)
    · exact Complex.ofReal_ne_zero.mpr (by norm_num [eps0])
  rw [div_eq_iff hden]
  have hpiC : ((Real.pi : ℝ) : ℂ) ≠ 0 := Complex.ofReal_ne_zero.mpr Real.pi_ne_zero
  have hepsC : ((eps0 : ℝ) : ℂ) ≠ 0 := Complex.ofReal_ne_zero.mpr (by norm_num [eps0])
  push_cast
  field_simp
  ring_nf
  rw [Complex.I_sq]
  ring

theorem c7_ifft_zero :
    ifft 2 (EzFftOf 2 (dsGrid cfg7) (rhoS cfg7 (fun _ => 0))) 0 =
      ((-1 / (Real.pi ^ 2 * eps0) : ℝ) : ℂ) * Complex.I := by
  rw [ifft_two_zero, c7_EzFft_zero, c7_EzFft_one]
  push_cast
  ring

theorem c7_ifft_one :
    ifft 2 (EzFftOf 2 (dsGrid cfg7) (rhoS cfg7 (fun _ => 0))) 1 =
      ((1 / (Real.pi ^ 2 * eps0) : ℝ) : ℂ) * Complex.I := by
  rw [ifft_two_one, c7_EzFft_zero, c7_EzFft_one]
  push_cast
  ring

theorem c7_pisq_eps_lt_one : Real.pi ^ 2 * eps0 < 1 := by
  have hpi := Real.pi_lt_d2
  have hpi0 := Real.pi_pos
  have hsq : Real.pi ^ 2 < 9.9225 := by nlinarith
  unfold eps0
  nlinarith

theorem c7_grid0 : EzGridOf 2 (dsGrid cfg7) (rhoS cfg7 (fun _ => 0)) 0 = 0 := by
  unfold EzGridOf realPartGrid
  rw [c7_ifft_zero, ofReal_mul_I_re]

theorem c7_grid1 : EzGridOf 2 (dsGrid cfg7) (rhoS cfg7 (fun _ => 0)) 1 = 0 := by
  unfold EzGridOf realPartGrid
  rw [c7_ifft_one, ofReal_mul_I_re]

theorem c7_im :
    1 < |(ifft 2 (EzFftOf 2 (dsGrid cfg7) (rhoS cfg7 (fun _ => 0))) 0).im| := by
  rw [c7_ifft_zero]
  rw [ofReal_mul_I_im]
  have hpos : 0 < Real.pi ^ 2 * eps0 := by
    have := Real.pi_pos
    have : (0 : ℝ) < eps0 := by norm_num [eps0]
    positivity
  rw [abs_div, abs_neg, abs_one, abs_of_pos hpos]
  exact (one_lt_div hpos).mpr c7_pisq_eps_lt_one

/-- Claim C7 counterexample: at the concrete two-bin configuration cfg7 with
one particle at the origin, the inverse transform of the solved field has an
imaginary component of absolute value above 1 (far above any small
tolerance), yet the computed grid field is just the real part, the zero
vector, and no failure of any kind is raised: the code silently discards the
imaginary component and continues with the real part. -/
theorem C7_counterexample_imag :
    1 < |(ifft 2 (EzFftOf 2 (dsGrid cfg7) (rhoS cfg7 (currentSMod cfg7 Yz7))) 0).im| ∧
    EzGridOf 2 (dsGrid cfg7) (rhoS cfg7 (currentSMod cfg7 Yz7)) 0 = 0 ∧
    EzGridOf 2 (dsGrid cfg7) (rhoS cfg7 (currentSMod cfg7 Yz7)) 1 = 0 := by
  rw [c7_smod]
  exact ⟨c7_im, c7_grid0, c7_grid1⟩

/-- Claim C7 amended: after the Variant G inverse transform the code keeps
only the real part unconditionally: a contribution whose inverse transform
is purely imaginary, of any size, changes nothing in the grid field and the
run continues (no anomaly is ever raised). -/
theorem C7_imaginary_discarded (Ng : ℕ) (X Z : Fin Ng → ℂ)
    (h : ∀ j, (ifft Ng Z j).re = 0) :
    realPartGrid Ng (fun k => X k + Z k) = realPartGrid Ng X := by
  funext j
  unfold realPartGrid
  have hlin : ifft Ng (fun k => X k + Z k) j = ifft Ng X j + ifft Ng Z j := by
    unfold ifft
    rw [div_add_div_same]
    congr 1
    rw [← Finset.sum_add_distrib]
    exact Finset.sum_congr rfl fun k _ => by ring
  rw [hlin, Complex.add_re, h j, add_zero]

theorem Zc7_ifft_re (j : Fin 2) : (ifft 2 Zc7 j).re = 0 := by
  have h0 : (ifft 2 Zc7 0).re = 0 := by
    rw [ifft_two_zero]
    norm_num [Zc7, Complex.div_re, Complex.normSq_apply]
  have h1 : (ifft 2 Zc7 1).re = 0 := by
    rw [ifft_two_one]
    norm_num [Zc7, Complex.div_re, Complex.normSq_apply]
  fin_cases j
  · exact h0
  · exact h1

/-- Claim C7 amended witness: the theorem applied at the two-bin grid with
the concrete vectors Xc7 and Zc7, the latter with a purely imaginary inverse
transform. -/
theorem C7_imaginary_discarded_witness :
    realPartGrid 2 (fun k => Xc7 k + Zc7 k) = realPartGrid 2 Xc7 :=
  C7_imaginary_discarded 2 Xc7 Zc7 Zc7_ifft_re

/-! ## Claim C8 -/

/-- Claim C8 counterexample: the program performs no fail-fast validation.
At the configuration cfg8c, whose harmonic count is zero, the Variant H
field computation evaluates normally (the harmonic loop is empty) and
returns the zero field; no DomainViolation or failure of any kind occurs at
initialization or later. -/
theorem C8_counterexample_no_failfast :
    sumTerms cfg8c ![0] ⟨0, Nat.one_pos⟩ = 0 ∧
    EzParticles cfg8c ![0] ⟨0, Nat.one_pos⟩ = 0 := by
  have hs : sumTerms cfg8c ![0] ⟨0, Nat.one_pos⟩ = 0 := by
    unfold sumTerms
    exact Fin.sum_univ_zero _
  refine ⟨hs, ?_⟩
  unfold EzParticles
  rw [hs, mul_zero]

/-- Claim C8 amended: the module-level initialization validates nothing: a
zero harmonic count is accepted, every derived constant is computed, and the
Variant H solver then returns the identically zero field for every ensemble
(integration proceeds force-free) instead of failing fast with a
DomainViolation. -/
theorem C8_zero_harmonics_zero_field (Np : ℕ) (a b c d f g : ℝ)
    (θ : Fin Np → ℝ) (i : Fin Np) :
    EzParticles ⟨Np, a, b, c, d, f, g, 0⟩ θ i = 0 := by
  unfold EzParticles
  have hs : sumTerms ⟨Np, a, b, c, d, f, g, 0⟩ θ i = 0 := by
    unfold sumTerms
    exact Fin.sum_univ_zero _
  rw [hs, mul_zero]

/-! ## Claim C9 -/

/-- Claim C9: with four particles at phases 0, pi/2, pi, 3 pi/2 and one
harmonic, the bunching factor b_1 = mean (cos phase) is exactly zero, hence
the Variant H field is zero at every particle, the energy derivative of
every particle is zero, and one integration step of any finite size z
(explicit Euler step of the external engine) leaves every eta unchanged,
whatever the particle energies are. -/
theorem C9_four_particle_zero_field (lam gam sig am ip rb : ℝ)
    (η : Fin 4 → ℝ) (z0 h : ℝ) (i : Fin 4) :
    bnAt 4 phases4 0 = 0 ∧
    EzParticles ⟨4, lam, gam, sig, am, ip, rb, 1⟩ phases4 i = 0 ∧
    collective_ode ⟨4, lam, gam, sig, am, ip, rb, 1⟩ z0 (interleave 4 η phases4)
      (evenIdx 4 i) = 0 ∧
    eulerStep (2 * 4) (collective_ode ⟨4, lam, gam, sig, am, ip, rb, 1⟩) z0 h
      (interleave 4 η phases4) (evenIdx 4 i) =
      interleave 4 η phases4 (evenIdx 4 i) := by
  have hb : bnAt 4 phases4 0 = 0 := by
    unfold bnAt
    rw [Fin.sum_univ_four]
    have h0 : phases4 0 = 0 := rfl
    have h1 : phases4 1 = Real.pi / 2 := rfl
    have h2 : phases4 2 = Real.pi := rfl
    have h3 : phases4 3 = 3 * Real.pi / 2 := rfl
    rw [h0, h1, h2, h3]
    norm_num [Real.cos_pi_div_two, Real.cos_pi]
    rw [show (3 : ℝ) * Real.pi / 2 = Real.pi + Real.pi / 2 by ring]
    rw [Real.cos_add, Real.cos_pi, Real.sin_pi, Real.cos_pi_div_two,
      Real.sin_pi_div_two]
    norm_num
  have hbn : bnArray 4 1 phases4 (0 : Fin 1) = 0 := by
    rw [bnArray_eq_bnAt]
    exact hb
  have hEz : ∀ j : Fin 4,
      EzParticles ⟨4, lam, gam, sig, am, ip, rb, 1⟩ phases4 j = 0 := by
    intro j
    unfold EzParticles
    have hsum : sumTerms ⟨4, lam, gam, sig, am, ip, rb, 1⟩ phases4 j = 0 := by
      unfold sumTerms
      rw [Fin.sum_univ_one]
      rw [if_neg (fun hc => hc.1 hbn)]
    rw [hsum, mul_zero]
  have hode : collective_ode ⟨4, lam, gam, sig, am, ip, rb, 1⟩ z0
      (interleave 4 η phases4) (evenIdx 4 i) = 0 := by
    rw [collective_ode_even, currentTheta_interleave, hEz i, mul_zero]
  refine ⟨hb, hEz i, hode, ?_⟩
  unfold eulerStep
  rw [hode, mul_zero, add_zero]

/-! ## Claim C10 -/

/-- Claim C10: in the diagnostics extraction of both variants the normalized
projected energy-spread history is nan (modelled none) for every snapshot
whenever the particle count is 10 or fewer, and only for a particle count
above 10 does each entry equal the standard deviation of the snapshot eta
array divided by the initial energy-spread scale. -/
theorem C10_nan_threshold (N : ℕ) (σ0 : ℝ) (snaps : List (Fin N → ℝ)) :
    historySigmaEtaOde N σ0 snaps =
      (if 10 < N then snaps.map (fun s => some (npStd N s / σ0))
       else snaps.map (fun _ => none)) ∧
    historySigmaEtaOdeFft N σ0 snaps =
      (if 10 < N then snaps.map (fun s => some (npStd N s / σ0))
       else snaps.map (fun _ => none)) := by
  have key : (snaps.map fun s => if 10 < N then some (npStd N s / σ0) else none) =
      (if 10 < N then snaps.map (fun s => some (npStd N s / σ0))
       else snaps.map (fun _ => none)) := by
    by_cases hn : 10 < N <;> simp [hn]
  exact ⟨key, key⟩

end

end LSC
